import Mathlib

/-!
Verification of `scale_econs_bootstrap_lasso.py` (Barten-scale bootstrap engine).

Matrices are shallowly embedded as functions `Fin N → Fin P → ℚ` (row, column);
the sparse group-indicator structure produced by `scipy.sparse.csr_array(..).nonzero()`
is embedded as a list of (observation index, group index) pairs.  Exact rational
arithmetic stands in for IEEE floats; square roots live in `ℝ`.
-/

namespace ScaleEcons

/-! ## GroupDemeaner: `demean` (source lines 23-48)

The Python function initialises `var_demean` to zeros and then, for every unique
group id `i` appearing in `gt[1]` (in the sorted order produced by `np.unique`),
overwrites the rows `index = gt[0][gt[1] == i]` with `var[index] - var[index].mean(axis=0)`.
-/

/-- Observation rows assigned to group `g`: the embedding of `gt[0][np.where(gt[1] == i)]`. -/
def groupRows {N : ℕ} (gt : List (Fin N × ℕ)) (g : ℕ) : List (Fin N) :=
  (gt.filter (fun p => p.2 == g)).map Prod.fst

/-- Column mean of `var` restricted to the listed rows: `var[index, :].mean(axis=0)`. -/
def colMean {N P : ℕ} (var : Fin N → Fin P → ℚ) (rows : List (Fin N)) (j : Fin P) : ℚ :=
  (rows.map (fun n => var n j)).sum / (rows.length : ℚ)

/-- Sorted list of distinct group ids: the embedding of `np.unique(gt[1])`. -/
def uniqueGroups {N : ℕ} (gt : List (Fin N × ℕ)) : List ℕ :=
  List.mergeSort ((gt.map Prod.snd).dedup) (· ≤ ·)

/-- One iteration of the loop body `var_demean[index, :] = var[index, :] - var[index, :].mean(axis=0)`. -/
def demeanStep {N P : ℕ} (var : Fin N → Fin P → ℚ) (gt : List (Fin N × ℕ))
    (acc : Fin N → Fin P → ℚ) (g : ℕ) : Fin N → Fin P → ℚ :=
  fun n j =>
    if n ∈ groupRows gt g then var n j - colMean var (groupRows gt g) j else acc n j

/-- Embedding of `demean(var, gt)`: start from the zero matrix and run the loop
over the unique group ids. -/
def demean {N P : ℕ} (var : Fin N → Fin P → ℚ) (gt : List (Fin N × ℕ)) :
    Fin N → Fin P → ℚ :=
  (uniqueGroups gt).foldl (demeanStep var gt) (fun _ _ => 0)

/-- Membership in `groupRows` unfolds to membership of the pair in `gt`. -/
theorem mem_groupRows {N : ℕ} {gt : List (Fin N × ℕ)} {g : ℕ} {n : Fin N} :
    n ∈ groupRows gt g ↔ (n, g) ∈ gt := by
  unfold groupRows
  simp only [List.mem_map, List.mem_filter, beq_iff_eq]
  constructor
  · rintro ⟨⟨a, b⟩, ⟨hab, hb⟩, ha⟩
    cases ha; cases hb; exact hab
  · intro h
    exact ⟨(n, g), ⟨h, rfl⟩, rfl⟩

/-- Under the at-most-one-group discipline, an observation determines its group. -/
theorem group_unique {N : ℕ} {gt : List (Fin N × ℕ)}
    (Huniq : (gt.map Prod.fst).Nodup) {n : Fin N} {g g' : ℕ}
    (h : (n, g) ∈ gt) (h' : (n, g') ∈ gt) : g = g' := by
  have := List.inj_on_of_nodup_map Huniq h h' rfl
  exact congrArg Prod.snd this

/-- Rows of the loop that are touched by no group in the remaining worklist keep
their accumulator value. -/
theorem demean_foldl_untouched {N P : ℕ} (var : Fin N → Fin P → ℚ)
    (gt : List (Fin N × ℕ)) (L : List ℕ) (acc : Fin N → Fin P → ℚ) (n : Fin N) (j : Fin P)
    (h : ∀ g ∈ L, n ∉ groupRows gt g) :
    (L.foldl (demeanStep var gt) acc) n j = acc n j := by
  induction L generalizing acc with
  | nil => rfl
  | cons g L ih =>
    rw [List.foldl_cons, ih _ (fun g' hg' => h g' (List.mem_cons_of_mem _ hg'))]
    simp only [demeanStep, if_neg (h g (List.mem_cons_self g L))]

/-- If `n` belongs to group `g0`, to no other group, and `g0` occurs in the Nodup
worklist, the loop writes the demeaned value there and never overwrites it. -/
theorem demean_foldl_mem {N P : ℕ} (var : Fin N → Fin P → ℚ)
    (gt : List (Fin N × ℕ)) (L : List ℕ) (acc : Fin N → Fin P → ℚ) (n : Fin N) (j : Fin P)
    (g0 : ℕ) (hnodup : L.Nodup) (hmem : g0 ∈ L) (hrow : n ∈ groupRows gt g0)
    (huni : ∀ g, n ∈ groupRows gt g → g = g0) :
    (L.foldl (demeanStep var gt) acc) n j = var n j - colMean var (groupRows gt g0) j := by
  induction L generalizing acc with
  | nil => cases hmem
  | cons g L ih =>
    rw [List.foldl_cons]
    by_cases hg : g = g0
    · subst hg
      have hnot : ∀ g' ∈ L, n ∉ groupRows gt g' := by
        intro g' hg' hn
        have := huni g' hn
        subst this
        exact (List.nodup_cons.mp hnodup).1 hg'
      rw [demean_foldl_untouched var gt L _ n j hnot]
      simp only [demeanStep, if_pos hrow]
    · have hmem' : g0 ∈ L := by
        rcases List.mem_cons.mp hmem with h | h
        · exact absurd h.symm hg
        · exact h
      exact ih _ (List.nodup_cons.mp hnodup).2 hmem'

/-- Characterisation on assigned rows: under the at-most-one-group discipline,
`demean` subtracts the mean of the row's own group. -/
theorem demean_apply_mem {N P : ℕ} (var : Fin N → Fin P → ℚ) (gt : List (Fin N × ℕ))
    (Huniq : (gt.map Prod.fst).Nodup) {n : Fin N} {g : ℕ} (hg : (n, g) ∈ gt) (j : Fin P) :
    demean var gt n j = var n j - colMean var (groupRows gt g) j := by
  unfold demean
  have hnodup : (uniqueGroups gt).Nodup :=
    ((List.mergeSort_perm ((gt.map Prod.snd).dedup) (· ≤ ·)).nodup_iff).mpr
      (List.nodup_dedup _)
  have hmem : g ∈ uniqueGroups gt := by
    have : g ∈ (gt.map Prod.snd).dedup :=
      List.mem_dedup.mpr (List.mem_map.mpr ⟨(n, g), hg, rfl⟩)
    exact ((List.mergeSort_perm ((gt.map Prod.snd).dedup) (· ≤ ·)).mem_iff).mpr this
  exact demean_foldl_mem var gt _ _ n j g hnodup hmem (mem_groupRows.mpr hg)
    (fun g' hg' => group_unique Huniq (mem_groupRows.mp hg') hg)

/-- Characterisation on unassigned rows: `var_demean` is initialised to zeros and
such rows are never written. -/
theorem demean_apply_notmem {N P : ℕ} (var : Fin N → Fin P → ℚ) (gt : List (Fin N × ℕ))
    {n : Fin N} (h : n ∉ gt.map Prod.fst) (j : Fin P) :
    demean var gt n j = 0 := by
  unfold demean
  rw [demean_foldl_untouched]
  intro g _ hn
  exact h (List.mem_map.mpr ⟨(n, g), mem_groupRows.mp hn, rfl⟩)

/-- Summing a constant shift over a list. -/
theorem list_sum_map_sub_const {α : Type} (l : List α) (f : α → ℚ) (c : ℚ) :
    (l.map (fun x => f x - c)).sum = (l.map f).sum - (l.length : ℚ) * c := by
  induction l with
  | nil => simp
  | cons a l ih =>
    simp only [List.map_cons, List.sum_cons, ih, List.length_cons]
    push_cast
    ring

/-- Key computation shared by C4 and C9: the post-demeaning mean of every nonempty
group is exactly zero. -/
theorem demean_group_mean_zero {N P : ℕ} (var : Fin N → Fin P → ℚ)
    (gt : List (Fin N × ℕ)) (Huniq : (gt.map Prod.fst).Nodup) (g : ℕ)
    (hne : groupRows gt g ≠ []) (j : Fin P) :
    colMean (demean var gt) (groupRows gt g) j = 0 := by
  have hcongr : (groupRows gt g).map (fun n => demean var gt n j)
      = (groupRows gt g).map (fun n => var n j - colMean var (groupRows gt g) j) := by
    apply List.map_congr_left
    intro n hn
    exact demean_apply_mem var gt Huniq (mem_groupRows.mp hn) j
  have hlen : ((groupRows gt g).length : ℚ) ≠ 0 := by
    have := List.length_pos.mpr hne
    positivity
  unfold colMean
  rw [hcongr, list_sum_map_sub_const]
  unfold colMean
  rw [mul_div_cancel₀ _ hlen]
  simp

/-- Global column mean of the whole sample. -/
def globalColMean {N P : ℕ} (var : Fin N → Fin P → ℚ) (j : Fin P) : ℚ :=
  (∑ n : Fin N, var n j) / (N : ℚ)

/-- When one group covers every row, the group column mean is the global one. -/
theorem colMean_global {N P : ℕ} (var : Fin N → Fin P → ℚ) (gt : List (Fin N × ℕ))
    (Huniq : (gt.map Prod.fst).Nodup) (g0 : ℕ) (hall : ∀ n : Fin N, (n, g0) ∈ gt)
    (j : Fin P) : colMean var (groupRows gt g0) j = globalColMean var j := by
  have hnodup : (groupRows gt g0).Nodup := by
    unfold groupRows
    exact Huniq.sublist (List.Sublist.map Prod.fst (List.filter_sublist gt))
  have hallmem : ∀ n : Fin N, n ∈ groupRows gt g0 := fun n => mem_groupRows.mpr (hall n)
  have htofin : (groupRows gt g0).toFinset = Finset.univ :=
    Finset.eq_univ_iff_forall.mpr (fun n => List.mem_toFinset.mpr (hallmem n))
  have hsum : ((groupRows gt g0).map (fun n => var n j)).sum = ∑ n : Fin N, var n j := by
    rw [← List.sum_toFinset _ hnodup, htofin]
  have hlen : ((groupRows gt g0).length : ℚ) = (N : ℚ) := by
    have := List.toFinset_card_of_nodup hnodup
    rw [htofin, Finset.card_univ, Fintype.card_fin] at this
    exact_mod_cast this.symm
  unfold colMean globalColMean
  rw [hsum, hlen]

/-- C4: for every sparse group assignment in which each observation appears in at
most one pair, `demean` (whose function-typed result fixes shape and row order by
construction) makes every nonempty group's column mean zero, and when a single
group covers all rows the output is the input minus its global column means. -/
theorem claim_C4_demean_functional {N P : ℕ} (var : Fin N → Fin P → ℚ)
    (gt : List (Fin N × ℕ)) (Huniq : (gt.map Prod.fst).Nodup) :
    (∀ g : ℕ, groupRows gt g ≠ [] → ∀ j, colMean (demean var gt) (groupRows gt g) j = 0)
    ∧ (∀ g0 : ℕ, (∀ n : Fin N, (n, g0) ∈ gt) →
        ∀ n j, demean var gt n j = var n j - globalColMean var j) := by
  constructor
  · exact fun g hne j => demean_group_mean_zero var gt Huniq g hne j
  · intro g0 hall n j
    rw [demean_apply_mem var gt Huniq (hall n) j, colMean_global var gt Huniq g0 hall j]

/-- Concrete two-row one-column sample used by the C4 witness. -/
def exVarC4 : Fin 2 → Fin 1 → ℚ := fun n _ => if n = 0 then 2 else 4

/-- Concrete global group assignment used by the C4 witness. -/
def exGtC4 : List (Fin 2 × ℕ) := [(0, 5), (1, 5)]

/-- Witness for C4 at a concrete two-row sample with one global group. -/
theorem claim_C4_demean_functional_witness :
    ((exGtC4.map Prod.fst).Nodup)
    ∧ colMean (demean exVarC4 exGtC4) (groupRows exGtC4 5) 0 = 0
    ∧ demean exVarC4 exGtC4 0 0 = exVarC4 0 0 - globalColMean exVarC4 0 :=
  ⟨by decide,
   (claim_C4_demean_functional exVarC4 exGtC4 (by decide)).1 5 (by decide) 0,
   (claim_C4_demean_functional exVarC4 exGtC4 (by decide)).2 5 (by decide) 0 0⟩

/-- C9: once each observation sits in at most one group, demeaning a second time
with the same assignment returns the first output unchanged. -/
theorem claim_C9_demean_idempotent {N P : ℕ} (var : Fin N → Fin P → ℚ)
    (gt : List (Fin N × ℕ)) (Huniq : (gt.map Prod.fst).Nodup) :
    demean (demean var gt) gt = demean var gt := by
  funext n j
  by_cases hmem : n ∈ gt.map Prod.fst
  · obtain ⟨⟨n', g⟩, hp, he⟩ := List.mem_map.mp hmem
    cases he
    have hne : groupRows gt g ≠ [] := by
      intro hnil
      have := mem_groupRows.mpr hp
      rw [hnil] at this
      cases this
    rw [demean_apply_mem (demean var gt) gt Huniq hp j,
      demean_group_mean_zero var gt Huniq g hne j, sub_zero]
  · rw [demean_apply_notmem _ gt hmem j, demean_apply_notmem var gt hmem j]

/-- Concrete three-row sample used by the C9 witness. -/
def exVarC9 : Fin 3 → Fin 1 → ℚ := fun n _ => ((n : ℕ) : ℚ) + 1

/-- Concrete two-group assignment used by the C9 witness. -/
def exGtC9 : List (Fin 3 × ℕ) := [(0, 1), (1, 1), (2, 4)]

/-- Witness for C9 at a concrete sample with two groups. -/
theorem claim_C9_demean_idempotent_witness :
    ((exGtC9.map Prod.fst).Nodup)
    ∧ demean (demean exVarC9 exGtC9) exGtC9 = demean exVarC9 exGtC9 :=
  ⟨by decide, claim_C9_demean_idempotent exVarC9 exGtC9 (by decide)⟩

/-- C10: a row appearing in no (observation, group) pair is returned as all
zeros, regardless of its input values, because the output matrix is initialised
to zeros and only assigned rows are written. -/
theorem claim_C10_unassigned_row_zero {N P : ℕ} (var : Fin N → Fin P → ℚ)
    (gt : List (Fin N × ℕ)) (n : Fin N) (h : n ∉ gt.map Prod.fst) (j : Fin P) :
    demean var gt n j = 0 :=
  demean_apply_notmem var gt h j

/-- Concrete sample used by the C10 witness: row 1 has value 7 but no group. -/
def exVarC10 : Fin 2 → Fin 1 → ℚ := fun n _ => if n = 0 then 5 else 7

/-- Concrete partial assignment used by the C10 witness. -/
def exGtC10 : List (Fin 2 × ℕ) := [(0, 3)]

/-- Witness for C10: row 1 carries a nonzero value but no group, and comes out 0. -/
theorem claim_C10_unassigned_row_zero_witness :
    ((1 : Fin 2) ∉ (exGtC10.map Prod.fst))
    ∧ demean exVarC10 exGtC10 1 0 = 0 :=
  ⟨by decide, claim_C10_unassigned_row_zero exVarC10 exGtC10 1 (by decide) 0⟩

/-! ## Singleton gt-cell exclusion (C1)

Bootstrap path, source lines 235-243: a gt column is excluded when the set of
DISTINCT pandas index labels (the original row ids installed by
`shs_data.loc[resampling]`) among its members has size one; then every
positional row of each excluded column is dropped.

Point-estimate path, source lines 623-628: a gt column is excluded when its
column sum is one; then the first (only) member row of each excluded column is
dropped.

Rows of the working sample are `Fin N`; `origIdx n` is the original row label of
row `n`; `gtInd n i` says whether row `n` lies in gt-cell `i`. -/

/-- Positional member rows of gt-cell `i` (`gt.index[gt[i] == 1]`). -/
def cellRows {N G : ℕ} (gtInd : Fin N → Fin G → Bool) (i : Fin G) : List (Fin N) :=
  (List.finRange N).filter (fun n => gtInd n i)

/-- Cells dropped by the per-replication rule:
`len(np.unique(gt[i][gt[i] == 1].index)) == 1`. -/
def gtExcludedBoot {N G : ℕ} (origIdx : Fin N → ℕ) (gtInd : Fin N → Fin G → Bool) :
    List (Fin G) :=
  (List.finRange G).filter (fun i => ((cellRows gtInd i).map origIdx).dedup.length == 1)

/-- Rows dropped by the per-replication rule: the concatenation, over excluded
cells, of all member rows (`sum([gt.index[gt[i] == 1].tolist() ...], [])`). -/
def idxExcludedBoot {N G : ℕ} (origIdx : Fin N → ℕ) (gtInd : Fin N → Fin G → Bool) :
    List (Fin N) :=
  (gtExcludedBoot origIdx gtInd).flatMap (fun i => cellRows gtInd i)

/-- Cells dropped by the point-estimate rule: `gt[i].sum() == 1`. -/
def gtExcludedPoint {N G : ℕ} (gtInd : Fin N → Fin G → Bool) : List (Fin G) :=
  (List.finRange G).filter (fun i => (cellRows gtInd i).length == 1)

/-- Rows dropped by the point-estimate rule: the first member of each excluded
cell (`gt.index[gt[gt_excluded[i]] == 1].tolist()[0]`). -/
def idxExcludedPoint {N G : ℕ} (gtInd : Fin N → Fin G → Bool) : List (Fin N) :=
  (gtExcludedPoint gtInd).flatMap (fun i => (cellRows gtInd i).take 1)

/-- Resampled sample for the C1 counterexample: original row 0 drawn twice. -/
def exOrigC1 : Fin 2 → ℕ := fun _ => 0

/-- Single gt-cell containing both resampled rows, for the C1 counterexample. -/
def exGtIndC1 : Fin 2 → Fin 1 → Bool := fun _ _ => true

/-- Counterexample to C1: when the resampling vector repeats an index, the
replication path drops the whole cell (both copies of row 0) while the
point-estimate rule, seeing a column sum of two, drops nothing. -/
theorem claim_C1_counterexample :
    (0 : Fin 2) ∈ idxExcludedBoot exOrigC1 exGtIndC1
    ∧ (0 : Fin 2) ∉ idxExcludedPoint exGtIndC1 := by
  decide

/-- C1 (amended): when the resampling index vector contains no repeated index,
the set of observations dropped by the replication path equals the set dropped
by the point-estimate path on the same rows. -/
theorem claim_C1_exclusion_agree {N G : ℕ} (origIdx : Fin N → ℕ)
    (gtInd : Fin N → Fin G → Bool) (hinj : Function.Injective origIdx) :
    ∀ n : Fin N, n ∈ idxExcludedBoot origIdx gtInd ↔ n ∈ idxExcludedPoint gtInd := by
  have hcells : gtExcludedBoot origIdx gtInd = gtExcludedPoint gtInd := by
    unfold gtExcludedBoot gtExcludedPoint
    apply List.filter_congr
    intro i _
    have hnodup : (cellRows gtInd i).Nodup :=
      (List.nodup_finRange N).filter _
    have hmap : ((cellRows gtInd i).map origIdx).Nodup := hnodup.map hinj
    rw [List.dedup_eq_self.mpr hmap, List.length_map]
  intro n
  unfold idxExcludedBoot idxExcludedPoint
  rw [hcells]
  simp only [List.mem_flatMap]
  constructor
  · rintro ⟨i, hi, hn⟩
    refine ⟨i, hi, ?_⟩
    have hlen : (cellRows gtInd i).length = 1 := by
      have := (List.mem_filter.mp hi).2
      exact beq_iff_eq.mp this
    obtain ⟨a, ha⟩ := List.length_eq_one.mp hlen
    rw [ha] at hn ⊢
    simpa using hn
  · rintro ⟨i, hi, hn⟩
    exact ⟨i, hi, List.mem_of_mem_take hn⟩

/-- Witness for the amended C1 at a concrete injective resampling draw. -/
theorem claim_C1_exclusion_agree_witness :
    Function.Injective (fun n : Fin 2 => (n : ℕ))
    ∧ ((0 : Fin 2) ∈ idxExcludedBoot (fun n : Fin 2 => (n : ℕ)) exGtIndC1
        ↔ (0 : Fin 2) ∈ idxExcludedPoint exGtIndC1) :=
  ⟨by decide, claim_C1_exclusion_agree _ exGtIndC1 (by decide) 0⟩

/-! ## CovarianceRepair / correlation: `cov_to_cor` (source lines 50-66) and the
per-type tail of the variance loop (source lines 467-479). -/

/-- Embedding of `cov_to_cor`: `v = np.sqrt(np.diag(cov)); cor = cov / np.outer(v, v)`. -/
noncomputable def cov_to_cor {K : ℕ} (cov : Fin K → Fin K → ℝ) : Fin K → Fin K → ℝ :=
  fun i j => cov i j / (Real.sqrt (cov i i) * Real.sqrt (cov j j))

/-- Positive semi-definiteness of a square matrix, via its quadratic form. -/
def IsPSD {K : ℕ} (A : Fin K → Fin K → ℝ) : Prop :=
  ∀ x : Fin K → ℝ, 0 ≤ ∑ a, ∑ b, x a * A a b * x b

/-- Test vector with value `t` at `i`, value `1` at `j`, and `0` elsewhere. -/
def twoPt {K : ℕ} (i j : Fin K) (t : ℝ) : Fin K → ℝ :=
  fun k => if k = i then t else if k = j then 1 else 0
/-- Splitting a nested indicator conditional into a sum of two indicators. -/
theorem ite_two_split {α : Type} [DecidableEq α] {i j : α} (hij : i ≠ j)
    (X Y : α → ℝ) (b : α) :
    (if b = i then X b else if b = j then Y b else 0)
      = (if b = i then X b else 0) + (if b = j then Y b else 0) := by
  by_cases hbi : b = i
  · subst hbi
    simp [hij]
  · by_cases hbj : b = j
    · subst hbj
      simp [hbi]
    · simp [hbi, hbj]

/-- Quadratic form of a matrix at the two-point test vector. -/
theorem qform_twoPt {K : ℕ} (A : Fin K → Fin K → ℝ) {i j : Fin K} (hij : i ≠ j) (t : ℝ) :
    ∑ a, ∑ b, twoPt i j t a * A a b * twoPt i j t b
      = A i i * (t * t) + (A i j + A j i) * t + A j j := by
  have hrow : ∀ a b, A a b * twoPt i j t b
      = (if b = i then A a b * t else 0) + (if b = j then A a b else 0) := by
    intro a b
    have h1 : A a b * twoPt i j t b
        = (if b = i then A a b * t else if b = j then A a b else 0) := by
      unfold twoPt
      by_cases hbi : b = i
      · simp [hbi]
      · by_cases hbj : b = j <;> simp [hbi, hbj]
    rw [h1]
    exact ite_two_split hij (fun b => A a b * t) (fun b => A a b) b
  have hinner : ∀ a, ∑ b, twoPt i j t a * A a b * twoPt i j t b
      = twoPt i j t a * (A a i * t + A a j) := by
    intro a
    simp only [mul_assoc]
    rw [← Finset.mul_sum]
    congr 1
    rw [Finset.sum_congr rfl (fun b _ => hrow a b), Finset.sum_add_distrib]
    simp [Finset.sum_ite_eq']
  rw [Finset.sum_congr rfl (fun a _ => hinner a)]
  have houter : ∀ a, twoPt i j t a * (A a i * t + A a j)
      = (if a = i then t * (A a i * t + A a j) else 0)
        + (if a = j then A a i * t + A a j else 0) := by
    intro a
    have h1 : twoPt i j t a * (A a i * t + A a j)
        = (if a = i then t * (A a i * t + A a j)
           else if a = j then A a i * t + A a j else 0) := by
      unfold twoPt
      by_cases hai : a = i
      · simp [hai]
      · by_cases haj : a = j <;> simp [hai, haj]
    rw [h1]
    exact ite_two_split hij (fun a => t * (A a i * t + A a j))
      (fun a => A a i * t + A a j) a
  rw [Finset.sum_congr rfl (fun a _ => houter a), Finset.sum_add_distrib]
  simp only [Finset.sum_ite_eq', Finset.mem_univ, if_pos]
  ring

/-- Cauchy-Schwarz-type entry bound for a symmetric PSD matrix, obtained from the
sign of the discriminant of the quadratic form at the two-point test vector. -/
theorem psd_entry_sq_le {K : ℕ} (A : Fin K → Fin K → ℝ) (hsym : ∀ i j, A i j = A j i)
    (hpsd : IsPSD A) (i j : Fin K) : A i j ^ 2 ≤ A i i * A j j := by
  by_cases hij : i = j
  · subst hij
    exact le_of_eq (pow_two _)
  · have key : ∀ t : ℝ, 0 ≤ A i i * (t * t) + (2 * A i j) * t + A j j := by
      intro t
      have h := hpsd (twoPt i j t)
      rw [qform_twoPt A hij t, hsym j i] at h
      calc (0 : ℝ) ≤ A i i * (t * t) + (A i j + A i j) * t + A j j := h
      _ = A i i * (t * t) + (2 * A i j) * t + A j j := by ring
    have hd := discrim_le_zero key
    unfold discrim at hd
    nlinarith [hd]

/-- Per-type correlation production inside the replication loop (source lines
467-470): `NPD.nearestPD` is applied to each assembled matrix and the
correlation is computed as `cov_to_cor(cov_matrix_pd[:, :, tt])`, i.e. from the
repaired central matrix alone; the repaired lower/upper-penalty matrices never
feed `cov_to_cor`. The external repair routine is abstracted as `repair`. -/
noncomputable def replicationCor {K : ℕ}
    (repair : (Fin K → Fin K → ℝ) → (Fin K → Fin K → ℝ))
    (cov_matrix _cov_l _cov_u : Fin K → Fin K → ℝ) : Fin K → Fin K → ℝ :=
  cov_to_cor (repair cov_matrix)

/-- C7: for a symmetric covariance matrix with strictly positive diagonal, the
derived correlation matrix has unit diagonal; when moreover the input is PSD
(as after repair) every off-diagonal entry has magnitude at most one; and the
replication correlation output depends only on the repaired central covariance
matrix, not on the lower/upper-penalty variants. -/
theorem claim_C7_correlation {K : ℕ} (cov : Fin K → Fin K → ℝ)
    (hsym : ∀ i j, cov i j = cov j i) (hdiag : ∀ i, 0 < cov i i) :
    (∀ i, cov_to_cor cov i i = 1)
    ∧ (IsPSD cov → ∀ i j, |cov_to_cor cov i j| ≤ 1)
    ∧ (∀ (repair : (Fin K → Fin K → ℝ) → (Fin K → Fin K → ℝ))
        (c l u lAlt uAlt : Fin K → Fin K → ℝ),
        replicationCor repair c l u = replicationCor repair c lAlt uAlt) := by
  refine ⟨?_, ?_, fun _ _ _ _ _ _ => rfl⟩
  · intro i
    unfold cov_to_cor
    rw [Real.mul_self_sqrt (le_of_lt (hdiag i))]
    exact div_self (ne_of_gt (hdiag i))
  · intro hpsd i j
    have hsq := psd_entry_sq_le cov hsym hpsd i j
    have habs : |cov i j| ≤ Real.sqrt (cov i i) * Real.sqrt (cov j j) := by
      rw [← Real.sqrt_sq_eq_abs, ← Real.sqrt_mul (le_of_lt (hdiag i))]
      exact Real.sqrt_le_sqrt hsq
    have hpos : 0 < Real.sqrt (cov i i) * Real.sqrt (cov j j) :=
      mul_pos (Real.sqrt_pos.mpr (hdiag i)) (Real.sqrt_pos.mpr (hdiag j))
    unfold cov_to_cor
    rw [abs_div, abs_of_pos hpos]
    exact (div_le_one hpos).mpr habs

/-- Concrete symmetric PSD covariance matrix used by the C7 witness. -/
noncomputable def exCovC7 : Fin 2 → Fin 2 → ℝ := fun i j => if i = j then 1 else 1 / 2

/-- Witness for C7 at a concrete 2-by-2 symmetric PSD matrix. -/
theorem claim_C7_correlation_witness :
    (∀ i j : Fin 2, exCovC7 i j = exCovC7 j i)
    ∧ (∀ i : Fin 2, 0 < exCovC7 i i)
    ∧ IsPSD exCovC7
    ∧ cov_to_cor exCovC7 0 0 = 1
    ∧ |cov_to_cor exCovC7 0 1| ≤ 1 := by
  have hsym : ∀ i j : Fin 2, exCovC7 i j = exCovC7 j i := by
    intro i j
    fin_cases i <;> fin_cases j <;> rfl
  have hdiag : ∀ i : Fin 2, 0 < exCovC7 i i := by
    intro i
    fin_cases i <;> norm_num [exCovC7]
  have hpsd : IsPSD exCovC7 := by
    intro x
    have hexp : ∑ a, ∑ b, x a * exCovC7 a b * x b
        = x 0 * x 0 + x 0 * (1 / 2) * x 1 + (x 1 * (1 / 2) * x 0 + x 1 * x 1) := by
      rw [Fin.sum_univ_two, Fin.sum_univ_two, Fin.sum_univ_two]
      norm_num [exCovC7]
    rw [hexp]
    nlinarith [sq_nonneg (x 0 + x 1), sq_nonneg (x 0 - x 1)]
  exact ⟨hsym, hdiag, hpsd,
    (claim_C7_correlation exCovC7 hsym hdiag).1 0,
    (claim_C7_correlation exCovC7 hsym hdiag).2.1 hpsd 0 1⟩

/-! ## String machinery shared by the name-matching code paths

The source selects coefficients and columns by Python substring tests
(`'s' in name`, `name in j`, `.str.contains("prod")`, ...). -/

/-- Substring containment on character lists: some contiguous slice equals `pat`. -/
def listContainsSub (s pat : List Char) : Bool :=
  (List.range (s.length + 1)).any (fun k => (s.drop k).take pat.length == pat)

/-- Embedding of the Python `in` operator on strings (`pat in s`). -/
def strContainsSub (s pat : String) : Bool :=
  listContainsSub s.data pat.data

/-! ## Variance-equation regressor selection (C3), source lines 394-431

For household type `tt` the candidate universe is
`g_bery_included_boot = [f'{i}_{j}' for i in g_included_boot for j in NAME_bery_crosssum]`;
for pair equation `i` the offered columns are those candidates containing the
pair tag `name = NAME_res_crossprod[i].replace("res", "ber") + 'y'`, followed by
the pair's cross-product column `NAME_bery_crossprod[i]`; each of the three
variants then keeps `[col for col in mask if col in exog.columns.tolist()]`. -/

/-- Candidate group-interacted cross-sum column names. -/
def gBeryIncluded (gIncluded berySum : List String) : List String :=
  gIncluded.flatMap (fun gi => berySum.map (fun bj => gi ++ "_" ++ bj))

/-- Offered exogenous columns for one pair equation. -/
def varExogCols (gIncluded berySum : List String) (pairName prodName : String) :
    List String :=
  (gBeryIncluded gIncluded berySum).filter (fun j => strContainsSub j pairName)
    ++ [prodName]

/-- Final regressor list of one pair equation under one mask variant. -/
def varEqSelected (mask exogCols : List String) : List String :=
  mask.filter (fun col => exogCols.contains col)

/-- Counterexample to C3: with an empty selection mask the pair's cross-product
column is NOT included, so its inclusion is not unconditional — the mask filter
is applied to the whole offered column list, penalty-exempt column included. -/
theorem claim_C3_counterexample :
    "ber1.2y_prod" ∉ varEqSelected []
      (varExogCols ["g1"] ["ber1.2y_sum"] "ber1.2y" "ber1.2y_prod") := by
  decide

/-- C3 (amended): in every variance-stage pair equation, under every type and
mask variant, a column is a regressor exactly when it occurs in that pair's
selection mask AND is offered — i.e. it is either a group-interacted
ber-cross-sum candidate matching the pair tag, or the pair's ber cross-product
column. In particular the cross-product column is included precisely when the
mask mentions it, not unconditionally. -/
theorem claim_C3_regressor_membership (gIncluded berySum mask : List String)
    (pairName prodName col : String) :
    col ∈ varEqSelected mask (varExogCols gIncluded berySum pairName prodName)
      ↔ col ∈ mask
        ∧ ((col ∈ gBeryIncluded gIncluded berySum ∧ strContainsSub col pairName)
            ∨ col = prodName) := by
  unfold varEqSelected varExogCols
  rw [List.mem_filter]
  constructor
  · rintro ⟨hmask, hcontains⟩
    refine ⟨hmask, ?_⟩
    have hmem : col ∈ (gBeryIncluded gIncluded berySum).filter
        (fun j => strContainsSub j pairName) ++ [prodName] :=
      List.mem_of_elem_eq_true hcontains
    rcases List.mem_append.mp hmem with h | h
    · exact Or.inl ⟨(List.mem_filter.mp h).1, (List.mem_filter.mp h).2⟩
    · exact Or.inr (List.mem_singleton.mp h)
  · rintro ⟨hmask, hoff⟩
    refine ⟨hmask, List.elem_eq_true_of_mem ?_⟩
    rcases hoff with ⟨hg, hp⟩ | hp
    · exact List.mem_append.mpr (Or.inl (List.mem_filter.mpr ⟨hg, hp⟩))
    · exact List.mem_append.mpr (Or.inr (List.mem_singleton.mpr hp))

/-! ## Barten scale point estimates (C5), source lines 68-135 and 275-315

Column names are generated exactly as in the source f-strings, and the fitted
SUR parameter series is modelled as the list of labels
`eq{i+1}_{column}` (equation label joined to column name, in equation-then-column
order) paired with arbitrary coefficient values. -/

/-- Shareable goods of the reference configuration (source line 194). -/
def SHAREABLE : List ℕ := [1, 2, 8, 17, 19]

/-- Household types of the reference configuration (source line 193). -/
def TYPE : List ℕ := [24, 27, 28]

/-- Demographic variables of the reference configuration (source line 195). -/
def DEMOG : List ℕ := [1, 2]

/-- Single/couple-collapsed type labels `['s', 'h1', 'h2', 'h3']` (source line 252). -/
def NAME_t_single : List String :=
  "s" :: (List.range TYPE.length).map (fun i => "h" ++ toString (i + 1))

/-- Full type labels `['sm', 'sf', 'h1', 'h2', 'h3']` (source line 250). -/
def NAME_t : List String :=
  "sm" :: "sf" :: (List.range TYPE.length).map (fun i => "h" ++ toString (i + 1))

/-- Interacted ery column names `f'er{SHAREABLE[i]}y_{tt}'` in type-then-good
order (source lines 277-279). -/
def NAME_eryt : List String :=
  NAME_t_single.flatMap (fun tt => SHAREABLE.map (fun g => "er" ++ toString g ++ "y_" ++ tt))

/-- Interacted demographic column names `f'z{DEMOG[i]}_{tt}'` in type-then-demog
order (source lines 285-287). -/
def NAME_zt : List String :=
  NAME_t.flatMap (fun tt => DEMOG.map (fun d => "z" ++ toString d ++ "_" ++ tt))

/-- Exogenous columns of mean equation `i`:
`[col for col in NAME_eryt if f"er{SHAREABLE[i]}y_" in col] + NAME_zt`
(source lines 309-312). -/
def meanEqExog (i : ℕ) : List String :=
  NAME_eryt.filter
    (fun c => strContainsSub c ("er" ++ toString (SHAREABLE.getD i 0) ++ "y_"))
    ++ NAME_zt

/-- Labels of the fitted mean-stage parameter series, equation by equation. -/
def meanParamNames : List String :=
  (List.range SHAREABLE.length).flatMap
    (fun i => (meanEqExog i).map (fun c => "eq" ++ toString (i + 1) ++ "_" ++ c))

/-- Embedding of `barten(theta, num_eq)` (source lines 68-93): split `theta`
into its first and last `num_eq` entries and take the elementwise ratio
`b_h / b_s`. -/
def barten (theta : List ℚ) (num_eq : ℕ) : List ℚ :=
  List.zipWith (fun bh bs => bh / bs) (theta.drop num_eq) (theta.take num_eq)

/-- Embedding of the type-`i` column of `barten_results` (source lines 118-133):
filter the parameter series by substring containment of `'s'` (resp. `'h{i+1}'`)
and non-containment of `'z'`, take the values, concatenate, and apply `barten`. -/
def barten_results (params : List (String × ℚ)) (i : ℕ) (numEq : ℕ) : List ℚ :=
  let theta_s := (params.filter (fun p =>
    strContainsSub p.1 "s" && !(strContainsSub p.1 "z"))).map Prod.snd
  let theta_h := (params.filter (fun p =>
    strContainsSub p.1 ("h" ++ toString (i + 1)) && !(strContainsSub p.1 "z"))).map Prod.snd
  barten (theta_s ++ theta_h) numEq

set_option maxHeartbeats 2000000 in
/-- C5: under the reference configuration (5 goods, 3 types, 2 demographics;
70 = 5 x 14 fitted coefficients), the type-`t` Barten scale vector produced by
the name-filtering extraction has length 5 and equals, good by good, the ratio
of the type-`t` undemeaned-ery coefficient (position `14k + 1 + t` inside
equation block `k`) over the single-baseline ery coefficient (position `14k`):
exactly the elementwise ratio `b_h / b_s` with no demographic coefficient
selected. -/
theorem claim_C5_barten_extraction (v : ℕ → ℚ) (t : Fin 3) :
    barten_results (meanParamNames.zip ((List.range 70).map v)) (t : ℕ) 5
      = (List.range 5).map (fun k => v (14 * k + 1 + (t : ℕ)) / v (14 * k))
    ∧ (barten_results (meanParamNames.zip ((List.range 70).map v)) (t : ℕ) 5).length = 5 := by
  fin_cases t <;> exact ⟨rfl, rfl⟩

/-! ## Variance-stage fitted residuals (C2), source lines 318-333

Line 319 rebuilds `ery = er * y[:, None]` from the UNdemeaned `y`; lines 320-321
interact it with `t_single` and interact the raw demographics `z` with `t`; the
design row of equation `i` is `hstack((eryt[:, np.arange(i, len(NAME_eryt), K)], zt))`,
that is, the good-`i` columns `er[n,i]*y[n]*t_single[n,s]` followed by all
columns `z[n,d]*t[n,tt]`; `theta` is the equation's fitted coefficient vector
`mean_boot_est.params.filter(like='eq{i+1}')` in the same order. -/

/-- Fitted (predicted) value of mean equation `i` at observation `n`, computed
from the undemeaned type-interacted regressors: the matrix product
`hstack((eryt[:, arange(i, ..., K)], zt)) @ theta` of source lines 326-329. -/
def meanFit {N K S Tt D : ℕ} (er : Fin N → Fin K → ℚ) (y : Fin N → ℚ)
    (t_single : Fin N → Fin S → ℚ) (z : Fin N → Fin D → ℚ) (t : Fin N → Fin Tt → ℚ)
    (theta : Fin S ⊕ Fin Tt × Fin D → ℚ) (i : Fin K) (n : Fin N) : ℚ :=
  (∑ s : Fin S, er n i * y n * t_single n s * theta (Sum.inl s))
    + ∑ p : Fin Tt × Fin D, z n p.2 * t n p.1 * theta (Sum.inr p)

/-- Embedding of `fres = w[:, i] - (design @ theta)` (source lines 325-330). -/
def fres {N K S Tt D : ℕ} (w : Fin N → Fin K → ℚ) (er : Fin N → Fin K → ℚ)
    (y : Fin N → ℚ) (t_single : Fin N → Fin S → ℚ) (z : Fin N → Fin D → ℚ)
    (t : Fin N → Fin Tt → ℚ) (theta : Fin S ⊕ Fin Tt × Fin D → ℚ)
    (i : Fin K) (n : Fin N) : ℚ :=
  w n i - meanFit er y t_single z t theta i n

/-- One iteration of the residual re-demeaning loop (source lines 331-333):
`res[index, i] = fres[index] - np.mean(fres[index])`. -/
def resStep {N : ℕ} (fresCol : Fin N → ℚ) (gt : List (Fin N × ℕ))
    (acc : Fin N → ℚ) (g : ℕ) : Fin N → ℚ :=
  fun n =>
    if n ∈ groupRows gt g
    then fresCol n - ((groupRows gt g).map fresCol).sum / ((groupRows gt g).length : ℚ)
    else acc n

/-- Column `i` of `res` after the loop over `np.unique(gt[1])`; `res` is
initialised to zeros (source line 322). -/
def resStage {N : ℕ} (fresCol : Fin N → ℚ) (gt : List (Fin N × ℕ)) : Fin N → ℚ :=
  (uniqueGroups gt).foldl (resStep fresCol gt) (fun _ => 0)

/-- The residual re-demeaning loop is the `demean` loop on the residual column. -/
theorem resStage_eq_demean {N : ℕ} (fresCol : Fin N → ℚ) (gt : List (Fin N × ℕ)) :
    resStage fresCol gt
      = fun n => demean (fun m (_ : Fin 1) => fresCol m) gt n 0 := by
  unfold resStage demean
  funext n
  have hrel : ∀ (L : List ℕ) (acc1 : Fin N → ℚ) (acc2 : Fin N → Fin 1 → ℚ),
      (∀ m, acc1 m = acc2 m 0) →
      (L.foldl (resStep fresCol gt) acc1) n
        = (L.foldl (demeanStep (fun m (_ : Fin 1) => fresCol m) gt) acc2) n 0 := by
    intro L
    induction L with
    | nil => intro acc1 acc2 h; exact h n
    | cons g L ih =>
      intro acc1 acc2 h
      rw [List.foldl_cons, List.foldl_cons]
      apply ih
      intro m
      unfold resStep demeanStep colMean
      by_cases hm : m ∈ groupRows gt g
      · rw [if_pos hm, if_pos hm]
      · rw [if_neg hm, if_neg hm]
        exact h m
  exact hrel (uniqueGroups gt) _ _ (fun _ => rfl)

/-- Counterexample to C2: at a one-observation instance with budget share 1 and
all regressors zero, the code's residual `w - fitted` is `1`, not the claimed
`fitted - w` (which is `-1`). -/
theorem claim_C2_counterexample :
    @fres 1 1 1 1 1 (fun _ _ => 1) (fun _ _ => 0) (fun _ => 0) (fun _ _ => 0)
        (fun _ _ => 0) (fun _ _ => 0) (fun _ => 0) 0 0
      ≠ @meanFit 1 1 1 1 1 (fun _ _ => 0) (fun _ => 0) (fun _ _ => 0)
          (fun _ _ => 0) (fun _ _ => 0) (fun _ => 0) 0 0
        - (fun (_ : Fin 1) (_ : Fin 1) => (1 : ℚ)) 0 0 := by
  norm_num [fres, meanFit]

/-- C2 (amended): the variance-stage per-observation residual of good `i` is the
ACTUAL budget share minus the fitted value predicted from the undemeaned
type-interacted ery and demographic regressors, and the residual column is then
re-demeaned within gt groups by exactly the `demean` loop. -/
theorem claim_C2_variance_residuals {N K S Tt D : ℕ}
    (w : Fin N → Fin K → ℚ) (er : Fin N → Fin K → ℚ) (y : Fin N → ℚ)
    (t_single : Fin N → Fin S → ℚ) (z : Fin N → Fin D → ℚ) (t : Fin N → Fin Tt → ℚ)
    (theta : Fin S ⊕ Fin Tt × Fin D → ℚ) (gt : List (Fin N × ℕ)) (i : Fin K) :
    (∀ n, fres w er y t_single z t theta i n
        = w n i - meanFit er y t_single z t theta i n)
    ∧ resStage (fres w er y t_single z t theta i) gt
        = fun n => demean (fun m (_ : Fin 1) => fres w er y t_single z t theta i m) gt n 0 :=
  ⟨fun _ => rfl, resStage_eq_demean _ gt⟩

/-! ## ScaleIndexEstimator: `scale` (C6), source lines 137-182 -/

/-- Rows selected by the subset indicator (`single_indicator == 1`). -/
def selRows {N : ℕ} (s : Fin N → ℚ) : List (Fin N) :=
  (List.finRange N).filter (fun n => s n == 1)

/-- Mean budget share over the selected rows:
`w_bar = data[single_indicator == 1, :].mean(axis=0)` (source line 169). -/
def shareMean {N M : ℕ} (data : Fin N → Fin M → ℚ) (s : Fin N → ℚ) (j : Fin M) : ℚ :=
  ((selRows s).map (fun n => data n j)).sum / ((selRows s).length : ℚ)

/-- Sample covariance (pandas `.cov()`, denominator `n - 1`) of the budget
shares over the selected rows: `w_cov` (source line 170). -/
def shareCov {N M : ℕ} (data : Fin N → Fin M → ℚ) (s : Fin N → ℚ) (j k : Fin M) : ℚ :=
  ((selRows s).map (fun n =>
    (data n j - shareMean data s j) * (data n k - shareMean data s k))).sum
    / (((selRows s).length : ℚ) - 1)

/-- Quadratic form `v @ A @ v` of numpy's chained matmul. -/
def quadForm {M : ℕ} {α : Type} [CommRing α] (A : Fin M → Fin M → α) (v : Fin M → α) : α :=
  ∑ r, ∑ c, v r * A r c * v c

/-- Scale vector padded with a trailing one:
`barten_full = np.concatenate([barten.iloc[:, i], [1]])` (source line 174). -/
def bartenFull {K T : ℕ} {α : Type} [One α] (a : Fin K → Fin T → α) (i : Fin T) :
    Fin (K + 1) → α :=
  Fin.snoc (fun k => a k i) 1

/-- Padded covariance block
`np.block([[cov[:, :, i], zeros(K, 1)], [zeros(1, K + 1)]])` (source lines 175-178). -/
def bartenCovFull {K T : ℕ} {α : Type} [Zero α] (cov : Fin K → Fin K → Fin T → α)
    (i : Fin T) : Fin (K + 1) → Fin (K + 1) → α :=
  fun r c =>
    if hr : (r : ℕ) < K then
      if hc : (c : ℕ) < K then cov ⟨r, hr⟩ ⟨c, hc⟩ i else 0
    else 0

/-- Embedding of `scale(barten, cov, data, single_indicator, TYPE, NAME_w)`
(source lines 137-182): one standard deviation per household type, collected
by the loop `for i in range(len(TYPE))` as
`sqrt(barten_full @ w_cov @ barten_full + w_bar @ barten_cov_full @ w_bar)`. -/
noncomputable def scale {N K T : ℕ} (a : Fin K → Fin T → ℚ)
    (cov : Fin K → Fin K → Fin T → ℝ) (data : Fin N → Fin (K + 1) → ℚ)
    (s : Fin N → ℚ) : List ℝ :=
  (List.finRange T).map (fun i =>
    Real.sqrt
      (((quadForm (shareCov data s) (bartenFull a i) : ℚ) : ℝ)
        + quadForm (bartenCovFull cov i) (fun r => ((shareMean data s r : ℚ) : ℝ))))

/-- Zero padding of the covariance block kills every term involving the last
(nonshareable, unit) coordinate of the quadratic form. -/
theorem quadForm_bartenCovFull {K T : ℕ} (cov : Fin K → Fin K → Fin T → ℝ) (i : Fin T)
    (m : Fin (K + 1) → ℝ) :
    quadForm (bartenCovFull cov i) m
      = ∑ r : Fin K, ∑ c : Fin K,
          m (Fin.castSucc r) * cov r c i * m (Fin.castSucc c) := by
  unfold quadForm
  rw [Fin.sum_univ_castSucc]
  have hlastrow : ∀ c : Fin (K + 1), bartenCovFull cov i (Fin.last K) c = 0 := by
    intro c
    unfold bartenCovFull
    rw [dif_neg]
    simp [Fin.last]
  have h1 : ∑ c : Fin (K + 1),
      m (Fin.last K) * bartenCovFull cov i (Fin.last K) c * m c = 0 := by
    apply Finset.sum_eq_zero
    intro c _
    rw [hlastrow c, mul_zero, zero_mul]
  rw [h1, add_zero]
  apply Finset.sum_congr rfl
  intro r _
  rw [Fin.sum_univ_castSucc]
  have hlastcol : bartenCovFull cov i (Fin.castSucc r) (Fin.last K) = 0 := by
    unfold bartenCovFull
    rw [dif_pos (by simpa using r.isLt)]
    rw [dif_neg]
    simp [Fin.last]
  rw [hlastcol, mul_zero, zero_mul, add_zero]
  apply Finset.sum_congr rfl
  intro c _
  have hentry : bartenCovFull cov i (Fin.castSucc r) (Fin.castSucc c) = cov r c i := by
    unfold bartenCovFull
    rw [dif_pos (by simpa using r.isLt), dif_pos (by simpa using c.isLt)]
    congr 1 <;> exact Fin.ext (by simp)
  rw [hentry]

/-- C6: each entry of the `scale` output is the square root of
scaleVec' shareCov scaleVec + shareMean' scaleCov shareMean, where scaleVec is
the type's Barten column padded with a trailing 1, scaleCov is the covariance
padded with zero cross-terms to the unit entry (so the second quadratic form
reduces to the K-by-K block), and shareMean/shareCov are the moments of the
full budget shares over the rows with subset indicator equal to 1; the output
has one entry per household type. -/
theorem claim_C6_scale_index {N K T : ℕ} (a : Fin K → Fin T → ℚ)
    (cov : Fin K → Fin K → Fin T → ℝ) (data : Fin N → Fin (K + 1) → ℚ)
    (s : Fin N → ℚ) :
    scale a cov data s
      = List.ofFn (fun i : Fin T =>
          Real.sqrt
            ((((∑ r, ∑ c, bartenFull a i r * shareCov data s r c * bartenFull a i c) : ℚ) : ℝ)
              + ∑ r : Fin K, ∑ c : Fin K,
                  ((shareMean data s (Fin.castSucc r) : ℚ) : ℝ) * cov r c i
                    * ((shareMean data s (Fin.castSucc c) : ℚ) : ℝ)))
    ∧ (∀ i : Fin T, bartenFull a i (Fin.last K) = 1
        ∧ ∀ k : Fin K, bartenFull a i (Fin.castSucc k) = a k i)
    ∧ (scale a cov data s).length = T := by
  refine ⟨?_, ?_, ?_⟩
  · rw [List.ofFn_eq_map]
    unfold scale
    apply List.map_congr_left
    intro i _
    rw [quadForm_bartenCovFull]
    rfl
  · intro i
    exact ⟨Fin.snoc_last _ _, fun k => Fin.snoc_castSucc _ _ k⟩
  · unfold scale
    rw [List.length_map, List.length_finRange]

/-! ## Replication summary layout (C8), source lines 388-533

The SUR solvers are abstracted by the three per-type fitted parameter series
`pc`/`pl`/`pu` (central, half-penalty, double-penalty) and `NPD.nearestPD` by
`repair`; everything downstream of the fits is assembled exactly as in the
source: filter the `"prod"` coefficients, fill and mirror the upper triangle,
repair, take correlations, diagonals, and run `scale` on the three subsets. -/

/-- Values of the fitted variance-stage coefficients whose label contains
`"prod"` (`params[params.index.str.contains("prod")]`, source lines 437-445). -/
def prodParams (params : List (String × ℝ)) : List ℝ :=
  (params.filter (fun p => strContainsSub p.1 "prod")).map Prod.snd

/-- Upper-triangular index pairs of a K-by-K matrix, row-major
(`np.triu_indices_from(..., k=0)`). -/
def triuPairs (K : ℕ) : List (ℕ × ℕ) :=
  (List.range K).flatMap (fun r => (List.range' r (K - r)).map (fun c => (r, c)))

/-- Symmetric matrix assembled from its flattened upper triangle (source lines
449-453): fill the upper triangle row-major, mirror into the lower. -/
def symFromUpper (K : ℕ) (vals : List ℝ) : Fin K → Fin K → ℝ :=
  fun r c =>
    if (r : ℕ) ≤ (c : ℕ)
    then vals.getD ((triuPairs K).findIdx (fun p => p == ((r : ℕ), (c : ℕ)))) 0
    else vals.getD ((triuPairs K).findIdx (fun p => p == ((c : ℕ), (r : ℕ)))) 0

/-- Flattened upper triangle `M[np.triu_indices_from(M, k=0)]`. -/
def triuFlatten {K : ℕ} (M : Fin K → Fin K → ℝ) : List ℝ :=
  (triuPairs K).map (fun p =>
    if h : p.1 < K ∧ p.2 < K then M ⟨p.1, h.1⟩ ⟨p.2, h.2⟩ else 0)

/-- Embedding of the replication output (source lines 388-533): the 9-tuple
`(cov, cov_pd, cor, std, std_scale_s, std_scale_sm, std_scale_sf, std_l, std_u)`
concatenated over household types in loop order. -/
noncomputable def bootstrapSummary {N K T : ℕ}
    (repair : (Fin K → Fin K → ℝ) → (Fin K → Fin K → ℝ))
    (pc pl pu : Fin T → List (String × ℝ))
    (a : Fin K → Fin T → ℚ)
    (w_all : Fin N → Fin (K + 1) → ℚ)
    (sAll sMale sFemale : Fin N → ℚ) :
    List ℝ × List ℝ × List ℝ × List ℝ × List ℝ × List ℝ × List ℝ × List ℝ × List ℝ :=
  ((List.finRange T).flatMap (fun i => prodParams (pc i)),
   (List.finRange T).flatMap (fun i =>
     triuFlatten (repair (symFromUpper K (prodParams (pc i))))),
   (List.finRange T).flatMap (fun i =>
     triuFlatten (cov_to_cor (repair (symFromUpper K (prodParams (pc i)))))),
   (List.finRange T).flatMap (fun i =>
     List.ofFn (fun k : Fin K => Real.sqrt (repair (symFromUpper K (prodParams (pc i))) k k))),
   scale a (fun r c i => repair (symFromUpper K (prodParams (pc i))) r c) w_all sAll,
   scale a (fun r c i => repair (symFromUpper K (prodParams (pc i))) r c) w_all sMale,
   scale a (fun r c i => repair (symFromUpper K (prodParams (pc i))) r c) w_all sFemale,
   (List.finRange T).flatMap (fun i =>
     List.ofFn (fun k : Fin K => Real.sqrt (repair (symFromUpper K (prodParams (pl i))) k k))),
   (List.finRange T).flatMap (fun i =>
     List.ofFn (fun k : Fin K => Real.sqrt (repair (symFromUpper K (prodParams (pu i))) k k))))

/-- Bridging list sums over `List.range` to `Finset.range`. -/
theorem list_range_map_sum (n : ℕ) (f : ℕ → ℕ) :
    ((List.range n).map f).sum = ∑ r in Finset.range n, f r := by
  induction n with
  | zero => simp
  | succ n ih =>
    rw [List.range_succ, List.map_append, List.sum_append, Finset.sum_range_succ, ih]
    simp

/-- Row-major upper-triangle index count. -/
theorem triuPairs_length (K : ℕ) : (triuPairs K).length = K * (K + 1) / 2 := by
  have h1 : (triuPairs K).length = ((List.range K).map (fun r => K - r)).sum := by
    unfold triuPairs
    rw [List.length_flatMap]
    congr 1
    apply List.map_congr_left
    intro r _
    simp [List.length_range']
  have h2 : ((List.range K).map (fun r => K - r)).sum * 2 = K * (K + 1) := by
    rw [list_range_map_sum]
    have hcong : ∑ j in Finset.range K, (K - j)
        = ∑ j in Finset.range K, (K - 1 - j + 1) := by
      apply Finset.sum_congr rfl
      intro j hj
      have := Finset.mem_range.mp hj
      omega
    rw [hcong, Finset.sum_range_reflect (fun i => i + 1) K]
    have hsplit : ∑ j in Finset.range K, (j + 1) = (∑ j in Finset.range K, j) + K := by
      rw [Finset.sum_add_distrib, Finset.sum_const, Finset.card_range, smul_eq_mul, mul_one]
    rw [hsplit]
    cases K with
    | zero => simp
    | succ k =>
      have hS := Finset.sum_range_id_mul_two (k + 1)
      simp only [Nat.add_sub_cancel] at hS
      rw [add_mul, hS]
      ring
  rw [h1]
  have hm : ∀ m S : ℕ, S * 2 = m → S = m / 2 := by
    intro m S h
    omega
  exact hm _ _ h2

/-- Length of a flatMap with blocks of constant length. -/
theorem length_flatMap_eq {α β : Type} (l : List α) (f : α → List β) (c : ℕ)
    (h : ∀ a ∈ l, (f a).length = c) : (l.flatMap f).length = l.length * c := by
  induction l with
  | nil => simp
  | cons a l ih =>
    rw [List.flatMap_cons, List.length_append, h a (List.mem_cons_self a l),
      ih (fun x hx => h x (List.mem_cons_of_mem a hx)), List.length_cons]
    ring

/-- Length of a flattened upper triangle. -/
theorem triuFlatten_length {K : ℕ} (M : Fin K → Fin K → ℝ) :
    (triuFlatten M).length = K * (K + 1) / 2 := by
  unfold triuFlatten
  rw [List.length_map, triuPairs_length]

/-- Length of the scale output: one entry per household type. -/
theorem scale_length {N K T : ℕ} (a : Fin K → Fin T → ℚ)
    (cov : Fin K → Fin K → Fin T → ℝ) (data : Fin N → Fin (K + 1) → ℚ)
    (s : Fin N → ℚ) : (scale a cov data s).length = T := by
  unfold scale
  rw [List.length_map, List.length_finRange]

/-- C8: whenever each household type's central variance fit carries exactly
K(K+1)/2 cross-product ("prod") coefficients, the replication output has the
documented layout: raw-covariance, repaired-covariance and correlation
components of T*K(K+1)/2 entries each (upper triangles, types concatenated in
order), three standard-deviation components (central, half-penalty,
double-penalty) of T*K entries each, and three scale-index components of T
entries each. -/
theorem claim_C8_summary_layout {N K T : ℕ}
    (repair : (Fin K → Fin K → ℝ) → (Fin K → Fin K → ℝ))
    (pc pl pu : Fin T → List (String × ℝ))
    (a : Fin K → Fin T → ℚ) (w_all : Fin N → Fin (K + 1) → ℚ)
    (sAll sMale sFemale : Fin N → ℚ)
    (hc : ∀ i : Fin T, (prodParams (pc i)).length = K * (K + 1) / 2) :
    (bootstrapSummary repair pc pl pu a w_all sAll sMale sFemale).1.length
        = T * (K * (K + 1) / 2)
    ∧ (bootstrapSummary repair pc pl pu a w_all sAll sMale sFemale).2.1.length
        = T * (K * (K + 1) / 2)
    ∧ (bootstrapSummary repair pc pl pu a w_all sAll sMale sFemale).2.2.1.length
        = T * (K * (K + 1) / 2)
    ∧ (bootstrapSummary repair pc pl pu a w_all sAll sMale sFemale).2.2.2.1.length
        = T * K
    ∧ (bootstrapSummary repair pc pl pu a w_all sAll sMale sFemale).2.2.2.2.1.length
        = T
    ∧ (bootstrapSummary repair pc pl pu a w_all sAll sMale sFemale).2.2.2.2.2.1.length
        = T
    ∧ (bootstrapSummary repair pc pl pu a w_all sAll sMale sFemale).2.2.2.2.2.2.1.length
        = T
    ∧ (bootstrapSummary repair pc pl pu a w_all sAll sMale sFemale).2.2.2.2.2.2.2.1.length
        = T * K
    ∧ (bootstrapSummary repair pc pl pu a w_all sAll sMale sFemale).2.2.2.2.2.2.2.2.length
        = T * K := by
  unfold bootstrapSummary
  refine ⟨?_, ?_, ?_, ?_, ?_, ?_, ?_, ?_, ?_⟩
  · rw [length_flatMap_eq _ _ _ (fun i _ => hc i), List.length_finRange]
  · rw [length_flatMap_eq _ _ (K * (K + 1) / 2) (fun i _ => triuFlatten_length _),
      List.length_finRange]
  · rw [length_flatMap_eq _ _ (K * (K + 1) / 2) (fun i _ => triuFlatten_length _),
      List.length_finRange]
  · rw [length_flatMap_eq _ _ K (fun i _ => List.length_ofFn _), List.length_finRange]
  · exact scale_length _ _ _ _
  · exact scale_length _ _ _ _
  · exact scale_length _ _ _ _
  · rw [length_flatMap_eq _ _ K (fun i _ => List.length_ofFn _), List.length_finRange]
  · rw [length_flatMap_eq _ _ K (fun i _ => List.length_ofFn _), List.length_finRange]

/-- Concrete one-type one-good parameter series for the C8 witness: a single
cross-product coefficient. -/
noncomputable def exPcC8 : Fin 1 → List (String × ℝ) := fun _ => [("ber1.1y_prod_h1", 1)]

/-- Witness for C8 at a concrete one-type, one-good instance. -/
theorem claim_C8_summary_layout_witness :
    (∀ i : Fin 1, (prodParams (exPcC8 i)).length = 1 * (1 + 1) / 2)
    ∧ (@bootstrapSummary 1 1 1 id exPcC8 exPcC8 exPcC8 (fun _ _ => 0) (fun _ _ => 0)
        (fun _ => 0) (fun _ => 0) (fun _ => 0)).1.length = 1 * (1 * (1 + 1) / 2)
    ∧ (@bootstrapSummary 1 1 1 id exPcC8 exPcC8 exPcC8 (fun _ _ => 0) (fun _ _ => 0)
        (fun _ => 0) (fun _ => 0) (fun _ => 0)).2.2.2.2.1.length = 1 := by
  have hc : ∀ i : Fin 1, (prodParams (exPcC8 i)).length = 1 * (1 + 1) / 2 := by
    intro i
    fin_cases i
    decide
  refine ⟨hc, ?_, ?_⟩
  · exact (claim_C8_summary_layout id exPcC8 exPcC8 exPcC8 (fun _ _ => 0) (fun _ _ => 0)
      (fun _ => 0) (fun _ => 0) (fun _ => 0) hc).1
  · exact (claim_C8_summary_layout id exPcC8 exPcC8 exPcC8 (fun _ _ => 0) (fun _ _ => 0)
      (fun _ => 0) (fun _ => 0) (fun _ => 0) hc).2.2.2.2.1
